import Mathlib

/-!
Shallow embedding of the priority task queue of `src/app.py`.

The application stores tasks as Python tuples `(priority, task_name)` in the
list `st.session_state.task_queue` and manipulates it exclusively through
CPython's `heapq` module: `heapq.heapify` (seed initialisation, app.py:67),
`heapq.heappush` (the "Add Task" button, app.py:129) and `heapq.heappop`
(inside `process_next_task`, app.py:143).  The functions below are direct
translations of the reference implementation of `heapq` (`_siftdown`,
`_siftup`, `heappush`, `heappop`, `heapify`) specialised to such pairs;
loops that walk the tree are written with an explicit fuel argument that is
always called with enough fuel (the walk is bounded by the array length),
so every definition is structurally recursive and computable by `rfl`.
-/

namespace HeapModel

/-- A scheduled task as stored in `st.session_state.task_queue`:
a `(priority_value, task_name)` pair.  Lower priority value means higher
urgency (min-heap convention, app.py:60). -/
abbrev Task : Type := Int × String

/-- Default task returned by the total indexing function when the index is
out of range; every access in the development is proved in-bounds. -/
def dtask : Task := (0, "")

/-- Python's `<` on `(int, str)` tuples, as used by `heapq` to compare two
queue entries: lexicographic, integers first, then the strings.  Python
compares strings lexicographically by code points, which is the
lexicographic order on the character list `String.data` (the same order as
Lean's `<` on `String`, by `String.lt_iff_toList_lt`; comparing the
character lists directly keeps the function kernel-computable). -/
def taskLt (a b : Task) : Bool :=
  decide (a.1 < b.1) || (decide (a.1 = b.1) && decide (a.2.data < b.2.data))

/-- Total indexing into the heap array, `idx l i` is Python's `l[i]`. -/
def idx : List Task → Nat → Task
  | [], _ => dtask
  | a :: _, 0 => a
  | _ :: t, n + 1 => idx t n

/-- CPython `heapq._siftdown(heap, startpos, pos)` (sift the new item `ni`
up towards the root): while `pos > startpos`, if `ni < heap[parentpos]`
the parent moves down into `pos` and the walk continues at `parentpos`,
otherwise `ni` is written at `pos`.  The fuel argument bounds the walk;
`pos` strictly decreases, so fuel `pos + 1` always suffices. -/
def siftdownFuel (ni : Task) (sp : Nat) : Nat → List Task → Nat → List Task
  | 0, l, pos => l.set pos ni
  | f + 1, l, pos =>
    if sp < pos then
      let parentpos := (pos - 1) / 2
      let parent := idx l parentpos
      if taskLt ni parent then
        siftdownFuel ni sp f (l.set pos parent) parentpos
      else
        l.set pos ni
    else
      l.set pos ni

/-- CPython `heapq._siftdown(heap, startpos, pos)`: the new item is read at
`heap[pos]`, then sifted up. -/
def siftdown (l : List Task) (sp pos : Nat) : List Task :=
  siftdownFuel (idx l pos) sp (pos + 1) l pos

/-- The loop of CPython `heapq._siftup`: starting from the hole at `pos`,
repeatedly move the smaller child up into the hole until the hole reaches a
position with no child below `endpos`.  Returns the array together with the
final hole position.  The walk moves strictly down, so fuel `endpos`
always suffices. -/
def siftupLoopF (endpos : Nat) : Nat → List Task → Nat → List Task × Nat
  | 0, l, pos => (l, pos)
  | f + 1, l, pos =>
    let childpos := 2 * pos + 1
    if childpos < endpos then
      let rightpos := childpos + 1
      let cpos :=
        if decide (rightpos < endpos) && !taskLt (idx l childpos) (idx l rightpos) then
          rightpos
        else
          childpos
      siftupLoopF endpos f (l.set pos (idx l cpos)) cpos
    else
      (l, pos)

/-- CPython `heapq._siftup(heap, pos)`: save `newitem = heap[pos]`, bubble
the smaller child up until the hole is a leaf, place `newitem` in the hole
and sift it up with `_siftdown(heap, pos, finalpos)`. -/
def siftup (l : List Task) (pos : Nat) : List Task :=
  let endpos := l.length
  let ni := idx l pos
  let r := siftupLoopF endpos endpos l pos
  siftdown (r.1.set r.2 ni) pos r.2

/-- CPython `heapq.heappush(heap, item)`: append `item`, then
`_siftdown(heap, 0, len(heap)-1)`.  This is the model of the "Add Task"
action (app.py:129). -/
def heappush (l : List Task) (item : Task) : List Task :=
  siftdown (l ++ [item]) 0 l.length

/-- The single error kind of the queue core: the spec's `EmptyQueue`. -/
inductive QueueError : Type
  | emptyQueue
deriving DecidableEq, Repr

/-- CPython `heapq.heappop(heap)` (the spec's `extractMin`): popping the
empty list fails (the spec's `EmptyQueue`, CPython's `IndexError`);
otherwise the last element is removed, and if the remainder is non-empty it
replaces the root, which is returned after `_siftup(heap, 0)` restores the
heap.  Model of the pop in `process_next_task` (app.py:143). -/
def heappop : List Task → Except QueueError (Task × List Task)
  | [] => Except.error QueueError.emptyQueue
  | l@(_ :: _) =>
    let lastelt := idx l (l.length - 1)
    let rest := l.dropLast
    if rest.isEmpty then
      Except.ok (lastelt, rest)
    else
      Except.ok (idx rest 0, siftup (rest.set 0 lastelt) 0)

/-- The loop of CPython `heapq.heapify(x)`:
`for i in reversed(range(n//2)): _siftup(x, i)`. -/
def heapifyAux : List Task → Nat → List Task
  | l, 0 => l
  | l, i + 1 => heapifyAux (siftup l i) i

/-- CPython `heapq.heapify(x)`, applied to the seed list at app.py:67. -/
def heapify (l : List Task) : List Task :=
  heapifyAux l (l.length / 2)

/-- The seed task list of the session (app.py:61-65). -/
def task_queue : List Task :=
  [(3, "Send follow-up email (Low Priority)"),
   (1, "Fix critical server bug (Urgent)"),
   (2, "Review PRs (Medium Priority)")]

/-- The heapified seed queue: the state of `st.session_state.task_queue`
right after initialisation (app.py:67). -/
def seedHeap : List Task := heapify task_queue

/-- `process_next_task` (app.py:140-146): if the queue is non-empty, pop
the root and report it (the toast); otherwise leave the queue alone and
report nothing (the `st.error` branch).  Returns the new queue state and
the processed task, if any. -/
def processNextTask (q : List Task) : List Task × Option Task :=
  if q.isEmpty then
    (q, none)
  else
    match heappop q with
    | Except.ok (r, q2) => (q2, some r)
    | Except.error _ => (q, none)

/-- Modelled from the spec: `peek()` is absent from `src/app.py` (no UI
action reads the root without popping); per spec section 4.1 it returns the
task at array index 0 without removing it and fails with `EmptyQueue` on a
zero-element queue. -/
def peek (q : List Task) : Except QueueError Task :=
  if q.isEmpty then
    Except.error QueueError.emptyQueue
  else
    Except.ok (idx q 0)

/-- Two consecutive `peek` calls on the same session queue with no
intervening mutation: returns both observed tasks and the queue state the
session is left with (a pure `peek` leaves the state untouched). -/
def peekTwice (q : List Task) : Except QueueError (Task × Task × List Task) := do
  let t1 ← peek q
  let t2 ← peek q
  pure (t1, t2, q)

/-- The display snapshot (app.py:152-156): the rendered table is built from
a copy of the queue rows and sorted ascending on the priority column
(`df.sort_values(by=...)`); the queue list itself is not touched. -/
def snapshotOrdered (l : List Task) : List Task :=
  l.mergeSort (fun a b => decide (a.1 ≤ b.1))

/-- Rendering the queue page (app.py:151-156): produces the sorted display
copy and hands the (unmodified) queue state back to the session. -/
def renderQueue (l : List Task) : List Task × List Task :=
  (snapshotOrdered l, l)

/-- One user action on the scheduler page: adding a task or pressing
"Process Most Urgent Task". -/
inductive HeapOp : Type
  | insert (t : Task)
  | extract
deriving DecidableEq, Repr

/-- Run a sequence of user actions on a queue state, with the app's
semantics: inserts are `heappush`, extraction is `process_next_task`
(a no-op on the empty queue). -/
def runOps : List Task → List HeapOp → List Task
  | q, [] => q
  | q, HeapOp.insert t :: rest => runOps (heappush q t) rest
  | q, HeapOp.extract :: rest => runOps (processNextTask q).1 rest

/-- Run a sequence of operations against the abstract core of the spec,
where `extractMin` is `heappop` and fails with `EmptyQueue` on an empty
queue, aborting the run. -/
def runOpsE : List Task → List HeapOp → Except QueueError (List Task)
  | q, [] => Except.ok q
  | q, HeapOp.insert t :: rest => runOpsE (heappush q t) rest
  | q, HeapOp.extract :: rest =>
    match heappop q with
    | Except.ok (_, q2) => runOpsE q2 rest
    | Except.error e => Except.error e

/-- Number of insert operations in a sequence. -/
def countInsert : List HeapOp → Nat
  | [] => 0
  | HeapOp.insert _ :: rest => countInsert rest + 1
  | HeapOp.extract :: rest => countInsert rest

/-- Number of extract operations in a sequence. -/
def countExtract : List HeapOp → Nat
  | [] => 0
  | HeapOp.insert _ :: rest => countExtract rest
  | HeapOp.extract :: rest => countExtract rest + 1

/-- Drain the queue by repeated `heappop` until it errs (i.e. is empty),
collecting the extracted tasks in order.  Each pop shortens the queue by
one, so fuel `l.length` drains completely. -/
def extractAllF : Nat → List Task → List Task
  | 0, _ => []
  | f + 1, l =>
    match heappop l with
    | Except.error _ => []
    | Except.ok (r, q) => r :: extractAllF f q

/-- Repeatedly `extractMin` until the queue is empty. -/
def extractAll (l : List Task) : List Task :=
  extractAllF l.length l

/-- The heap property of spec section 3, relative to a comparison `le`:
every non-root index is `le`-above its parent `(i-1)/2`. -/
def heapProp (le : Task → Task → Prop) (l : List Task) : Prop :=
  ∀ i : Nat, 0 < i → i < l.length → le (idx l ((i - 1) / 2)) (idx l i)

/-- The heap property with a hole at position `p`: all parent/child
constraints hold except those mentioning the content of `p`. -/
def heapPropHole (le : Task → Task → Prop) (l : List Task) (p : Nat) : Prop :=
  ∀ i : Nat, 0 < i → i < l.length → i ≠ p → (i - 1) / 2 ≠ p →
    le (idx l ((i - 1) / 2)) (idx l i)

/-- Comparison on priorities only: the ordering the spec states the heap
invariant with (`priority[parent] <= priority[i]`). -/
def priLe (a b : Task) : Prop := a.1 ≤ b.1

/-- Full tuple comparison, `a ≤ b` in Python's tuple order: the ordering
`heapq` actually maintains the array in. -/
def tupLe (a b : Task) : Prop := a.1 < b.1 ∨ (a.1 = b.1 ∧ a.2 ≤ b.2)

/-- What the heap-maintenance proofs need of a comparison `le`: it is
implied by the strict tuple comparison the code branches on (in both the
positive and the negative direction) and is transitive.  Both `priLe` and
`tupLe` qualify. -/
structure LeOK (le : Task → Task → Prop) : Prop where
  oflt : ∀ x y, taskLt x y = true → le x y
  ofnlt : ∀ x y, taskLt x y = false → le y x
  trans : ∀ x y z, le x y → le y z → le x z

instance (a b : Task) : Decidable (priLe a b) := by
  unfold priLe
  infer_instance

instance (a b : Task) : Decidable (tupLe a b) := by
  unfold tupLe
  infer_instance

/-! ### Basic facts about `idx`, `List.set` and the comparisons -/

theorem idx_set_self : ∀ (l : List Task) (i : Nat) (a : Task), i < l.length →
    idx (l.set i a) i = a := by
  intro l
  induction l with
  | nil => intro i a h; simp at h
  | cons b t ih =>
    intro i a h
    cases i with
    | zero => rfl
    | succ n =>
      simp only [List.set, idx]
      exact ih n a (by simpa using h)

theorem idx_set_ne : ∀ (l : List Task) (i j : Nat) (a : Task), j ≠ i →
    idx (l.set i a) j = idx l j := by
  intro l
  induction l with
  | nil => intro i j a _; simp [List.set]
  | cons b t ih =>
    intro i j a hne
    cases i with
    | zero =>
      cases j with
      | zero => exact absurd rfl hne
      | succ m => rfl
    | succ n =>
      cases j with
      | zero => rfl
      | succ m =>
        simp only [List.set, idx]
        exact ih n m a (fun h => hne (by omega))

theorem idx_mem : ∀ (l : List Task) (i : Nat), i < l.length → idx l i ∈ l := by
  intro l
  induction l with
  | nil => intro i h; simp at h
  | cons b t ih =>
    intro i h
    cases i with
    | zero => exact List.mem_cons_self b t
    | succ n => exact List.mem_cons_of_mem b (ih n (by simpa using h))

theorem mem_set_cases : ∀ (l : List Task) (i : Nat) (a x : Task),
    x ∈ l.set i a → x ∈ l ∨ x = a := by
  intro l
  induction l with
  | nil => intro i a x h; simp [List.set] at h
  | cons b t ih =>
    intro i a x h
    cases i with
    | zero =>
      rcases List.mem_cons.mp h with h1 | h1
      · exact Or.inr h1
      · exact Or.inl (List.mem_cons_of_mem b h1)
    | succ n =>
      rcases List.mem_cons.mp h with h1 | h1
      · exact Or.inl (h1 ▸ List.mem_cons_self b t)
      · rcases ih n a x h1 with h2 | h2
        · exact Or.inl (List.mem_cons_of_mem b h2)
        · exact Or.inr h2

theorem idx_append_lt : ∀ (l m : List Task) (i : Nat), i < l.length →
    idx (l ++ m) i = idx l i := by
  intro l
  induction l with
  | nil => intro m i h; simp at h
  | cons b t ih =>
    intro m i h
    cases i with
    | zero => rfl
    | succ n => exact ih m n (by simpa using h)

theorem idx_append_len : ∀ (l : List Task) (a : Task),
    idx (l ++ [a]) l.length = a := by
  intro l
  induction l with
  | nil => intro a; rfl
  | cons b t ih => intro a; exact ih a

theorem idx_dropLast : ∀ (l : List Task) (i : Nat), i < l.length - 1 →
    idx l.dropLast i = idx l i := by
  intro l
  induction l with
  | nil => intro i h; simp at h
  | cons b t ih =>
    intro i h
    cases t with
    | nil => simp at h
    | cons c u =>
      cases i with
      | zero => rfl
      | succ n =>
        simp only [List.dropLast, idx]
        exact ih n (by simp at h ⊢; omega)

theorem mem_of_mem_dropLast : ∀ (l : List Task) (x : Task),
    x ∈ l.dropLast → x ∈ l := by
  intro l x h
  rcases List.eq_nil_or_concat l with rfl | ⟨t, a, rfl⟩
  · simp at h
  · rw [List.concat_eq_append, List.dropLast_concat] at h
    rw [List.concat_eq_append]
    exact List.mem_append.mpr (Or.inl h)

theorem idx_eq_get : ∀ (l : List Task) (i : Nat) (h : i < l.length),
    idx l i = l.get ⟨i, h⟩ := by
  intro l
  induction l with
  | nil => intro i h; simp at h
  | cons b t ih =>
    intro i h
    cases i with
    | zero => rfl
    | succ n => exact ih n (by simpa using h)

theorem mem_iff_idx (l : List Task) (x : Task) :
    x ∈ l ↔ ∃ i : Nat, ∃ _ : i < l.length, idx l i = x := by
  constructor
  · intro h
    rcases List.mem_iff_get.mp h with ⟨n, hn⟩
    exact ⟨n.1, n.2, by rw [idx_eq_get l n.1 n.2]; exact hn⟩
  · rintro ⟨i, hi, rfl⟩
    exact idx_mem l i hi

theorem string_data_lt_iff (s t : String) : s.data < t.data ↔ s < t :=
  String.lt_iff_toList_lt.symm

theorem taskLt_iff (a b : Task) :
    taskLt a b = true ↔ a.1 < b.1 ∨ (a.1 = b.1 ∧ a.2 < b.2) := by
  simp only [taskLt, Bool.or_eq_true, Bool.and_eq_true, decide_eq_true_eq]
  rw [string_data_lt_iff]

theorem taskLt_eq_false_iff (a b : Task) :
    taskLt a b = false ↔ b.1 ≤ a.1 ∧ (a.1 = b.1 → b.2 ≤ a.2) := by
  rw [← Bool.not_eq_true, taskLt_iff]
  push_neg
  exact Iff.rfl

theorem taskLt_irrefl (a : Task) : taskLt a a = false := by
  rw [taskLt_eq_false_iff]
  exact ⟨le_refl _, fun _ => le_refl _⟩

theorem priLe_ok : LeOK priLe := by
  refine ⟨?_, ?_, ?_⟩
  · intro x y h
    rcases (taskLt_iff x y).mp h with h1 | ⟨h1, _⟩
    · exact le_of_lt h1
    · exact le_of_eq h1
  · intro x y h
    rcases (taskLt_eq_false_iff x y).mp h with ⟨h1, _⟩
    exact h1
  · intro x y z h1 h2
    exact le_trans h1 h2

theorem tupLe_ok : LeOK tupLe := by
  refine ⟨?_, ?_, ?_⟩
  · intro x y h
    rcases (taskLt_iff x y).mp h with h1 | ⟨h1, h2⟩
    · exact Or.inl h1
    · exact Or.inr ⟨h1, le_of_lt h2⟩
  · intro x y h
    rcases (taskLt_eq_false_iff x y).mp h with ⟨h1, h2⟩
    rcases lt_or_eq_of_le h1 with h3 | h3
    · exact Or.inl h3
    · exact Or.inr ⟨h3, h2 h3.symm⟩
  · intro x y z h1 h2
    rcases h1 with h1 | ⟨h1a, h1b⟩ <;> rcases h2 with h2 | ⟨h2a, h2b⟩
    · exact Or.inl (lt_trans h1 h2)
    · exact Or.inl (h2a ▸ h1)
    · exact Or.inl (h1a ▸ h2)
    · exact Or.inr ⟨h1a.trans h2a, le_trans h1b h2b⟩

theorem LeOK.refl {le : Task → Task → Prop} (hok : LeOK le) (a : Task) : le a a :=
  hok.ofnlt a a (taskLt_irrefl a)

/-! ### Correctness of `_siftdown` (sift the new item up) -/

theorem siftdownFuel_succ (ni : Task) (sp f : Nat) (l : List Task) (pos : Nat) :
    siftdownFuel ni sp (f + 1) l pos =
      if sp < pos then
        if taskLt ni (idx l ((pos - 1) / 2)) then
          siftdownFuel ni sp f (l.set pos (idx l ((pos - 1) / 2))) ((pos - 1) / 2)
        else
          l.set pos ni
      else
        l.set pos ni := rfl

theorem length_siftdownFuel : ∀ (f : Nat) (ni : Task) (sp : Nat) (l : List Task) (pos : Nat),
    (siftdownFuel ni sp f l pos).length = l.length := by
  intro f
  induction f with
  | zero => intro ni sp l pos; simp [siftdownFuel]
  | succ f ih =>
    intro ni sp l pos
    rw [siftdownFuel_succ]
    split
    · split
      · rw [ih]; exact List.length_set l pos _
      · exact List.length_set l pos ni
    · exact List.length_set l pos ni

theorem mem_siftdownFuel : ∀ (f : Nat) (ni : Task) (sp : Nat) (l : List Task) (pos : Nat)
    (x : Task), pos < l.length → x ∈ siftdownFuel ni sp f l pos → x ∈ l ∨ x = ni := by
  intro f
  induction f with
  | zero =>
    intro ni sp l pos x _ hx
    exact mem_set_cases l pos ni x hx
  | succ f ih =>
    intro ni sp l pos x hlen hx
    rw [siftdownFuel_succ] at hx
    by_cases h1 : sp < pos
    · rw [if_pos h1] at hx
      by_cases h2 : taskLt ni (idx l ((pos - 1) / 2)) = true
      · rw [if_pos h2] at hx
        have hpp : (pos - 1) / 2 < l.length := by omega
        have h3 := ih ni sp (l.set pos (idx l ((pos - 1) / 2))) ((pos - 1) / 2) x
          (by rw [List.length_set]; omega) hx
        rcases h3 with h3 | h3
        · rcases mem_set_cases l pos (idx l ((pos - 1) / 2)) x h3 with h4 | h4
          · exact Or.inl h4
          · exact Or.inl (h4 ▸ idx_mem l ((pos - 1) / 2) hpp)
        · exact Or.inr h3
      · rw [if_neg h2] at hx
        exact mem_set_cases l pos ni x hx
    · rw [if_neg h1] at hx
      exact mem_set_cases l pos ni x hx

theorem heapProp_siftdownFuel {le : Task → Task → Prop} (hok : LeOK le) :
    ∀ (f : Nat) (ni : Task) (l : List Task) (pos : Nat),
    pos < f → pos < l.length →
    heapPropHole le l pos →
    (∀ j, 0 < j → j < l.length → (j - 1) / 2 = pos → le ni (idx l j)) →
    (0 < pos → ∀ j, 0 < j → j < l.length → (j - 1) / 2 = pos →
        le (idx l ((pos - 1) / 2)) (idx l j)) →
    heapProp le (siftdownFuel ni 0 f l pos) := by
  intro f
  induction f with
  | zero => intro ni l pos hf; exact absurd hf (Nat.not_lt_zero pos)
  | succ f ih =>
    intro ni l pos hf hlen hole below gp
    rw [siftdownFuel_succ]
    rcases Nat.eq_zero_or_pos pos with hp0 | hpos
    · subst hp0
      rw [if_neg (lt_irrefl 0)]
      intro i hi hilen
      rw [List.length_set] at hilen
      by_cases hchild : (i - 1) / 2 = 0
      · rw [hchild, idx_set_self l 0 ni hlen, idx_set_ne l 0 i ni (by omega)]
        exact below i hi hilen hchild
      · rw [idx_set_ne l 0 ((i - 1) / 2) ni hchild, idx_set_ne l 0 i ni (by omega)]
        exact hole i hi hilen (by omega) hchild
    · rw [if_pos hpos]
      have hpp : (pos - 1) / 2 < pos := by omega
      cases hcmp : taskLt ni (idx l ((pos - 1) / 2)) with
      | false =>
        rw [if_neg (by simp [hcmp])]
        intro i hi hilen
        rw [List.length_set] at hilen
        by_cases hip : i = pos
        · subst hip
          rw [idx_set_self l i ni hlen, idx_set_ne l i ((i - 1) / 2) ni (by omega)]
          exact hok.ofnlt ni (idx l ((i - 1) / 2)) hcmp
        · by_cases hchild : (i - 1) / 2 = pos
          · rw [hchild, idx_set_self l pos ni hlen, idx_set_ne l pos i ni hip]
            exact below i hi hilen hchild
          · rw [idx_set_ne l pos ((i - 1) / 2) ni hchild, idx_set_ne l pos i ni hip]
            exact hole i hi hilen hip hchild
      | true =>
        rw [if_pos (by simp [hcmp])]
        refine ih ni (l.set pos (idx l ((pos - 1) / 2))) ((pos - 1) / 2)
          (by omega) (by rw [List.length_set]; omega) ?_ ?_ ?_
        · intro i hi hilen hip hchild
          rw [List.length_set] at hilen
          by_cases hipos : i = pos
          · exact absurd (by rw [hipos]) hchild
          · by_cases hchildpos : (i - 1) / 2 = pos
            · rw [hchildpos, idx_set_self l pos (idx l ((pos - 1) / 2)) hlen,
                  idx_set_ne l pos i (idx l ((pos - 1) / 2)) hipos]
              exact gp hpos i hi hilen hchildpos
            · rw [idx_set_ne l pos ((i - 1) / 2) (idx l ((pos - 1) / 2)) hchildpos,
                  idx_set_ne l pos i (idx l ((pos - 1) / 2)) hipos]
              exact hole i hi hilen hipos hchildpos
        · intro j hj hjlen hpar
          rw [List.length_set] at hjlen
          by_cases hjpos : j = pos
          · subst hjpos
            rw [idx_set_self l j (idx l ((j - 1) / 2)) hlen]
            exact hok.oflt ni (idx l ((j - 1) / 2)) hcmp
          · rw [idx_set_ne l pos j (idx l ((pos - 1) / 2)) hjpos]
            refine hok.trans ni (idx l ((pos - 1) / 2)) (idx l j)
              (hok.oflt ni (idx l ((pos - 1) / 2)) hcmp) ?_
            have h2 := hole j hj hjlen hjpos (by omega)
            rwa [hpar] at h2
        · intro hppos j hj hjlen hpar
          rw [List.length_set] at hjlen
          have hgpp : ((pos - 1) / 2 - 1) / 2 ≠ pos := by omega
          rw [idx_set_ne l pos (((pos - 1) / 2 - 1) / 2) (idx l ((pos - 1) / 2)) hgpp]
          by_cases hjpos : j = pos
          · subst hjpos
            rw [idx_set_self l j (idx l ((j - 1) / 2)) hlen]
            exact hole ((j - 1) / 2) hppos (by omega) (by omega) (by omega)
          · rw [idx_set_ne l pos j (idx l ((pos - 1) / 2)) hjpos]
            refine hok.trans (idx l (((pos - 1) / 2 - 1) / 2)) (idx l ((pos - 1) / 2))
              (idx l j) ?_ ?_
            · exact hole ((pos - 1) / 2) hppos (by omega) (by omega) (by omega)
            · have h2 := hole j hj hjlen hjpos (by omega)
              rwa [hpar] at h2

/-! ### Correctness of the `_siftup` loop (move the smaller child up) -/

theorem siftupLoopF_succ (endpos f : Nat) (l : List Task) (pos : Nat) :
    siftupLoopF endpos (f + 1) l pos =
      if 2 * pos + 1 < endpos then
        siftupLoopF endpos f
          (l.set pos (idx l
            (if decide (2 * pos + 1 + 1 < endpos) &&
                !taskLt (idx l (2 * pos + 1)) (idx l (2 * pos + 1 + 1)) then
              2 * pos + 1 + 1
            else
              2 * pos + 1)))
          (if decide (2 * pos + 1 + 1 < endpos) &&
              !taskLt (idx l (2 * pos + 1)) (idx l (2 * pos + 1 + 1)) then
            2 * pos + 1 + 1
          else
            2 * pos + 1)
      else
        (l, pos) := rfl

theorem siftupLoopF_exit (endpos f : Nat) (l : List Task) (pos : Nat)
    (h : ¬ 2 * pos + 1 < endpos) : siftupLoopF endpos (f + 1) l pos = (l, pos) := by
  rw [siftupLoopF_succ]
  exact if_neg h

theorem siftupLoopF_step (endpos f : Nat) (l : List Task) (pos : Nat)
    (h : 2 * pos + 1 < endpos) :
    ∃ cpos : Nat,
      (cpos - 1) / 2 = pos ∧ pos < cpos ∧ cpos < endpos ∧
      (∀ s : Nat, 0 < s → (s - 1) / 2 = pos → s < endpos → s ≠ cpos →
        taskLt (idx l cpos) (idx l s) = true ∨ taskLt (idx l s) (idx l cpos) = false) ∧
      siftupLoopF endpos (f + 1) l pos =
        siftupLoopF endpos f (l.set pos (idx l cpos)) cpos := by
  by_cases hright : 2 * pos + 1 + 1 < endpos ∧
      taskLt (idx l (2 * pos + 1)) (idx l (2 * pos + 1 + 1)) = false
  · refine ⟨2 * pos + 1 + 1, by omega, by omega, hright.1, ?_, ?_⟩
    · intro s hs0 hs hslen hsne
      have hs2 : s = 2 * pos + 1 := by omega
      subst hs2
      exact Or.inr hright.2
    · rw [siftupLoopF_succ, if_pos h]
      have hcond : (decide (2 * pos + 1 + 1 < endpos) &&
          !taskLt (idx l (2 * pos + 1)) (idx l (2 * pos + 1 + 1))) = true := by
        simp [hright.1, hright.2]
      rw [hcond]
      simp
  · refine ⟨2 * pos + 1, by omega, by omega, h, ?_, ?_⟩
    · intro s hs0 hs hslen hsne
      have hs2 : s = 2 * pos + 1 + 1 := by omega
      subst hs2
      left
      rcases Bool.eq_false_or_eq_true
          (taskLt (idx l (2 * pos + 1)) (idx l (2 * pos + 1 + 1))) with hb | hb
      · exact hb
      · exact absurd ⟨hslen, hb⟩ hright
    · rw [siftupLoopF_succ, if_pos h]
      have hcond : (decide (2 * pos + 1 + 1 < endpos) &&
          !taskLt (idx l (2 * pos + 1)) (idx l (2 * pos + 1 + 1))) = false := by
        rcases Bool.eq_false_or_eq_true
            (taskLt (idx l (2 * pos + 1)) (idx l (2 * pos + 1 + 1))) with hb | hb
        · simp [hb]
        · have hA : ¬ 2 * pos + 1 + 1 < endpos := fun hA => hright ⟨hA, hb⟩
          simp [hA]
      rw [hcond]
      simp

theorem siftupLoopF_spec {le : Task → Task → Prop} (hok : LeOK le) :
    ∀ (f : Nat) (l : List Task) (pos : Nat),
    l.length - pos ≤ f → pos < l.length →
    heapPropHole le l pos →
    (0 < pos → ∀ j, 0 < j → j < l.length → (j - 1) / 2 = pos →
        le (idx l ((pos - 1) / 2)) (idx l j)) →
    (siftupLoopF l.length f l pos).1.length = l.length ∧
    (siftupLoopF l.length f l pos).2 < l.length ∧
    l.length ≤ 2 * (siftupLoopF l.length f l pos).2 + 1 ∧
    heapPropHole le (siftupLoopF l.length f l pos).1 (siftupLoopF l.length f l pos).2 ∧
    (∀ x ∈ (siftupLoopF l.length f l pos).1, x ∈ l) := by
  intro f
  induction f with
  | zero =>
    intro l pos hf hpos
    exact absurd hpos (by omega)
  | succ f ih =>
    intro l pos hf hpos hole gp
    by_cases hc : 2 * pos + 1 < l.length
    · obtain ⟨cpos, hcp, hgt, hlt, hsib, heq⟩ := siftupLoopF_step l.length f l pos hc
      rw [heq]
      have hlen2 : (l.set pos (idx l cpos)).length = l.length := List.length_set l pos _
      have hole2 : heapPropHole le (l.set pos (idx l cpos)) cpos := by
        intro i hi hilen hicpos hichild
        rw [hlen2] at hilen
        by_cases hipos : i = pos
        · subst hipos
          rw [idx_set_self l i (idx l cpos) hpos,
              idx_set_ne l i ((i - 1) / 2) (idx l cpos) (by omega)]
          exact gp hi cpos (by omega) hlt hcp
        · by_cases hichildpos : (i - 1) / 2 = pos
          · rw [hichildpos, idx_set_self l pos (idx l cpos) hpos,
                idx_set_ne l pos i (idx l cpos) hipos]
            rcases hsib i hi hichildpos hilen hicpos with hb | hb
            · exact hok.oflt (idx l cpos) (idx l i) hb
            · exact hok.ofnlt (idx l i) (idx l cpos) hb
          · rw [idx_set_ne l pos ((i - 1) / 2) (idx l cpos) hichildpos,
                idx_set_ne l pos i (idx l cpos) hipos]
            exact hole i hi hilen hipos hichildpos
      have gp2 : 0 < cpos → ∀ j, 0 < j → j < (l.set pos (idx l cpos)).length →
          (j - 1) / 2 = cpos →
          le (idx (l.set pos (idx l cpos)) ((cpos - 1) / 2))
            (idx (l.set pos (idx l cpos)) j) := by
        intro _ j hj hjlen hjpar
        rw [hlen2] at hjlen
        rw [hcp, idx_set_self l pos (idx l cpos) hpos,
            idx_set_ne l pos j (idx l cpos) (by omega)]
        have h2 := hole j hj hjlen (by omega) (by omega)
        rwa [hjpar] at h2
      have hres := ih (l.set pos (idx l cpos)) cpos (by omega) (by omega) hole2 gp2
      rw [hlen2] at hres
      refine ⟨hres.1, hres.2.1, hres.2.2.1, hres.2.2.2.1, ?_⟩
      intro x hx
      rcases mem_set_cases l pos (idx l cpos) x (hres.2.2.2.2 x hx) with h1 | h1
      · exact h1
      · exact h1 ▸ idx_mem l cpos hlt
    · rw [siftupLoopF_exit l.length f l pos hc]
      exact ⟨rfl, hpos, by omega, hole, fun x hx => hx⟩

/-! ### Correctness of the composed heap operations -/

theorem length_siftupLoopF : ∀ (f e : Nat) (l : List Task) (pos : Nat),
    (siftupLoopF e f l pos).1.length = l.length := by
  intro f
  induction f with
  | zero => intro e l pos; rfl
  | succ f ih =>
    intro e l pos
    rw [siftupLoopF_succ]
    split
    · rw [ih]
      exact List.length_set l pos _
    · rfl

theorem length_siftup (l : List Task) (pos : Nat) : (siftup l pos).length = l.length := by
  show (siftdown _ pos (siftupLoopF l.length l.length l pos).2).length = l.length
  unfold siftdown
  rw [length_siftdownFuel, List.length_set, length_siftupLoopF]

theorem heapProp_siftup0 {le : Task → Task → Prop} (hok : LeOK le) (l : List Task)
    (h0 : 0 < l.length) (hole : heapPropHole le l 0) :
    heapProp le (siftup l 0) ∧ ∀ x ∈ siftup l 0, x ∈ l := by
  have hspec := siftupLoopF_spec hok l.length l 0 (by omega) h0 hole (by omega)
  obtain ⟨hlen1, hfp, hleaf, hole1, hmem1⟩ := hspec
  set r := siftupLoopF l.length l.length l 0 with hr
  set l4 := r.1.set r.2 (idx l 0) with hl4
  have hsift : siftup l 0 = siftdownFuel (idx l4 r.2) 0 (r.2 + 1) l4 r.2 := rfl
  have hlen4 : l4.length = l.length := by
    rw [hl4, List.length_set, hlen1]
  have hidx4 : idx l4 r.2 = idx l 0 := idx_set_self r.1 r.2 (idx l 0) (by omega)
  have hole4 : heapPropHole le l4 r.2 := by
    intro i hi hilen hine hichild
    rw [hlen4] at hilen
    rw [hl4, idx_set_ne r.1 r.2 i (idx l 0) hine,
        idx_set_ne r.1 r.2 ((i - 1) / 2) (idx l 0) hichild]
    exact hole1 i hi (by omega) hine hichild
  constructor
  · rw [hsift, hidx4]
    refine heapProp_siftdownFuel hok (r.2 + 1) (idx l 0) l4 r.2 (by omega) (by omega)
      hole4 ?_ ?_
    · intro j hj hjlen hjpar
      rw [hlen4] at hjlen
      exact absurd hjlen (by omega)
    · intro _ j hj hjlen hjpar
      rw [hlen4] at hjlen
      exact absurd hjlen (by omega)
  · intro x hx
    rw [hsift] at hx
    have hx2 := mem_siftdownFuel (r.2 + 1) (idx l4 r.2) 0 l4 r.2 x (by omega) hx
    rw [hidx4] at hx2
    rcases hx2 with hx3 | hx3
    · rcases mem_set_cases r.1 r.2 (idx l 0) x hx3 with hx4 | hx4
      · exact hmem1 x hx4
      · exact hx4 ▸ idx_mem l 0 h0
    · exact hx3 ▸ idx_mem l 0 h0

theorem heappush_length (l : List Task) (t : Task) :
    (heappush l t).length = l.length + 1 := by
  unfold heappush siftdown
  rw [length_siftdownFuel, List.length_append]
  rfl

theorem heappush_spec {le : Task → Task → Prop} (hok : LeOK le) (l : List Task)
    (t : Task) (h : heapProp le l) :
    (heappush l t).length = l.length + 1 ∧ heapProp le (heappush l t) := by
  refine ⟨heappush_length l t, ?_⟩
  unfold heappush siftdown
  refine heapProp_siftdownFuel hok (l.length + 1) (idx (l ++ [t]) l.length) (l ++ [t])
    l.length (by omega) (by rw [List.length_append]; simp) ?_ ?_ ?_
  · intro i hi hilen hine hichild
    rw [List.length_append] at hilen
    have hil : i < l.length := by simp at hilen; omega
    rw [idx_append_lt l [t] i hil, idx_append_lt l [t] ((i - 1) / 2) (by omega)]
    exact h i hi hil
  · intro j hj hjlen hjpar
    rw [List.length_append] at hjlen
    simp at hjlen
    exact absurd hjlen (by omega)
  · intro _ j hj hjlen hjpar
    rw [List.length_append] at hjlen
    simp at hjlen
    exact absurd hjlen (by omega)

theorem heappop_cons (a : Task) (t : List Task) :
    heappop (a :: t) =
      if (a :: t).dropLast.isEmpty then
        Except.ok (idx (a :: t) ((a :: t).length - 1), (a :: t).dropLast)
      else
        Except.ok (idx (a :: t).dropLast 0,
          siftup ((a :: t).dropLast.set 0 (idx (a :: t) ((a :: t).length - 1))) 0) := rfl

theorem heappop_spec {le : Task → Task → Prop} (hok : LeOK le) (l : List Task)
    (h : heapProp le l) (hne : l ≠ []) :
    ∃ q, heappop l = Except.ok (idx l 0, q) ∧ q.length = l.length - 1 ∧
      heapProp le q ∧ ∀ x ∈ q, x ∈ l := by
  cases l with
  | nil => exact absurd rfl hne
  | cons a t =>
    cases t with
    | nil =>
      refine ⟨[], rfl, rfl, ?_, ?_⟩
      · intro i hi hilen
        simp at hilen
      · intro x hx
        simp at hx
    | cons b u =>
      rw [heappop_cons]
      set l : List Task := a :: b :: u with hl
      have hlen : 2 ≤ l.length := by simp [hl]
      have hdl : l.dropLast.length = l.length - 1 := List.length_dropLast l
      have hdne : l.dropLast.isEmpty = false := by
        cases hcase : l.dropLast with
        | nil => rw [hcase] at hdl; simp at hdl; omega
        | cons c v => rfl
      rw [if_neg (by rw [hdne]; exact Bool.false_ne_true)]
      set lastelt := idx l (l.length - 1) with hlast
      set l3 := l.dropLast.set 0 lastelt with hl3
      have hlen3 : l3.length = l.length - 1 := by
        rw [hl3, List.length_set, hdl]
      have hidx0 : idx l.dropLast 0 = idx l 0 := idx_dropLast l 0 (by omega)
      have hole3 : heapPropHole le l3 0 := by
        intro i hi hilen hine hichild
        rw [hlen3] at hilen
        rw [hl3, idx_set_ne l.dropLast 0 i lastelt (by omega),
            idx_set_ne l.dropLast 0 ((i - 1) / 2) lastelt hichild,
            idx_dropLast l i (by omega), idx_dropLast l ((i - 1) / 2) (by omega)]
        exact h i hi (by omega)
      have hsu := heapProp_siftup0 hok l3 (by omega) hole3
      refine ⟨siftup l3 0, by rw [hidx0], ?_, hsu.1, ?_⟩
      · rw [length_siftup, hlen3]
      · intro x hx
        rcases mem_set_cases l.dropLast 0 lastelt x (hsu.2 x hx) with h1 | h1
        · exact mem_of_mem_dropLast l x h1
        · exact h1 ▸ idx_mem l (l.length - 1) (by omega)

theorem heappop_ok_length (l : List Task) (r : Task) (q : List Task)
    (h : heappop l = Except.ok (r, q)) : q.length + 1 = l.length := by
  cases l with
  | nil => simp [heappop] at h
  | cons a t =>
    rw [heappop_cons] at h
    by_cases hcase : (a :: t).dropLast.isEmpty
    · rw [if_pos hcase] at h
      have hq : q = (a :: t).dropLast := by
        injection h with h2
        injection h2 with h3 h4
        exact h4.symm
      rw [hq, List.length_dropLast]
      simp
    · rw [if_neg hcase] at h
      have hq : q = siftup ((a :: t).dropLast.set 0 (idx (a :: t) ((a :: t).length - 1))) 0 := by
        injection h with h2
        injection h2 with h3 h4
        exact h4.symm
      rw [hq, length_siftup, List.length_set, List.length_dropLast]
      simp

theorem heappop_ok_ne_nil (l : List Task) (r : Task) (q : List Task)
    (h : heappop l = Except.ok (r, q)) : l ≠ [] := by
  intro h0
  rw [h0] at h
  simp [heappop] at h

theorem heapProp_root_le {le : Task → Task → Prop} (hok : LeOK le) (l : List Task)
    (h : heapProp le l) : ∀ j, j < l.length → le (idx l 0) (idx l j) := by
  intro j
  induction j using Nat.strong_induction_on with
  | _ j ih =>
    intro hj
    rcases Nat.eq_zero_or_pos j with rfl | hj0
    · exact hok.refl (idx l 0)
    · exact hok.trans (idx l 0) (idx l ((j - 1) / 2)) (idx l j)
        (ih ((j - 1) / 2) (by omega) (by omega)) (h j hj0 hj)

theorem heapProp_root_min {le : Task → Task → Prop} (hok : LeOK le) (l : List Task)
    (h : heapProp le l) : ∀ x ∈ l, le (idx l 0) x := by
  intro x hx
  rcases (mem_iff_idx l x).mp hx with ⟨i, hi, rfl⟩
  exact heapProp_root_le hok l h i hi

/-! ### Draining the heap, and running operation sequences -/

theorem extractAllF_spec {le : Task → Task → Prop} (hok : LeOK le) :
    ∀ (f : Nat) (l : List Task), l.length ≤ f → heapProp le l →
    List.Pairwise le (extractAllF f l) ∧ (extractAllF f l).length = l.length ∧
      ∀ x ∈ extractAllF f l, x ∈ l := by
  intro f
  induction f with
  | zero =>
    intro l hf _
    have h0 : l = [] := List.eq_nil_of_length_eq_zero (by omega)
    subst h0
    exact ⟨List.Pairwise.nil, rfl, fun x hx => by simp [extractAllF] at hx⟩
  | succ f ih =>
    intro l hf h
    cases hl : l with
    | nil =>
      subst hl
      exact ⟨List.Pairwise.nil, rfl, fun x hx => by simp [extractAllF, heappop] at hx⟩
    | cons a t =>
      subst hl
      obtain ⟨q, heq, hlen, hq, hmem⟩ := heappop_spec hok (a :: t) h (by simp)
      have hstep : extractAllF (f + 1) (a :: t) = idx (a :: t) 0 :: extractAllF f q := by
        show (match heappop (a :: t) with
          | Except.error _ => []
          | Except.ok (r, q) => r :: extractAllF f q) = _
        rw [heq]
      obtain ⟨ihp, ihlen, ihmem⟩ := ih q (by simp at hlen hf; omega) hq
      rw [hstep]
      refine ⟨List.pairwise_cons.mpr ⟨?_, ihp⟩, ?_, ?_⟩
      · intro y hy
        exact heapProp_root_min hok (a :: t) h y (hmem y (ihmem y hy))
      · simp [ihlen, hlen]
      · intro x hx
        rcases List.mem_cons.mp hx with hx | hx
        · exact hx ▸ idx_mem (a :: t) 0 (by simp)
        · exact hmem x (ihmem x hx)

theorem processNextTask_heapProp {le : Task → Task → Prop} (hok : LeOK le)
    (q : List Task) (h : heapProp le q) : heapProp le (processNextTask q).1 := by
  unfold processNextTask
  by_cases hq : q.isEmpty
  · rw [if_pos hq]
    exact h
  · rw [if_neg hq]
    have hne : q ≠ [] := by
      intro h0
      subst h0
      exact hq rfl
    obtain ⟨q2, heq, _, hq2, _⟩ := heappop_spec hok q h hne
    rw [heq]
    exact hq2

theorem runOps_heapProp {le : Task → Task → Prop} (hok : LeOK le) :
    ∀ (ops : List HeapOp) (q : List Task),
    heapProp le q → heapProp le (runOps q ops) := by
  intro ops
  induction ops with
  | nil => intro q h; exact h
  | cons op rest ih =>
    intro q h
    cases op with
    | insert t => exact ih (heappush q t) (heappush_spec hok q t h).2
    | extract => exact ih (processNextTask q).1 (processNextTask_heapProp hok q h)

theorem runOpsE_length : ∀ (ops : List HeapOp) (q0 q : List Task),
    runOpsE q0 ops = Except.ok q → q.length + countExtract ops = q0.length + countInsert ops := by
  intro ops
  induction ops with
  | nil =>
    intro q0 q h
    injection h with h2
    rw [h2, countExtract, countInsert]
  | cons op rest ih =>
    intro q0 q h
    cases op with
    | insert t =>
      have h2 := ih (heappush q0 t) q h
      rw [heappush_length] at h2
      rw [countExtract, countInsert]
      omega
    | extract =>
      rw [runOpsE] at h
      cases heq : heappop q0 with
      | error e => rw [heq] at h; simp at h
      | ok p =>
        rw [heq] at h
        have h2 := ih p.2 q (by cases p; exact h)
        have h3 : p.2.length + 1 = q0.length := by
          cases p
          exact heappop_ok_length q0 _ _ heq
        rw [countExtract, countInsert]
        omega

/-! ### The seed queue satisfies the heap invariant -/

theorem heapProp_iff_range (le : Task → Task → Prop) (l : List Task) :
    heapProp le l ↔ ∀ i ∈ List.range l.length, i ≠ 0 →
      le (idx l ((i - 1) / 2)) (idx l i) := by
  constructor
  · intro h i hi hne
    exact h i (Nat.pos_of_ne_zero hne) (List.mem_range.mp hi)
  · intro h i hi hlen
    exact h i (List.mem_range.mpr hlen) (by omega)

theorem seedHeap_heapProp_pri : heapProp priLe seedHeap :=
  (heapProp_iff_range priLe seedHeap).mpr (by decide)

theorem seedHeap_heapProp_tup : heapProp tupLe seedHeap :=
  (heapProp_iff_range tupLe seedHeap).mpr (by decide)

/-! ### The claims -/

/-- C1: Heap invariant preservation.  Starting from the heapified seed
queue, after any sequence of insert (`heappush`) and extractMin
(`process_next_task`) calls, for every non-root index `i` of the
underlying array the priority at the parent index `(i-1)/2` is `≤` the
priority at index `i`. -/
theorem c1_heap_invariant_preserved (ops : List HeapOp) :
    ∀ i : Nat, 0 < i → i < (runOps seedHeap ops).length →
      (idx (runOps seedHeap ops) ((i - 1) / 2)).1 ≤ (idx (runOps seedHeap ops) i).1 :=
  runOps_heapProp priLe_ok ops seedHeap seedHeap_heapProp_pri

/-- Witness for C1 at the concrete operation sequence `[insert (2, "Deploy
code update")]` and index `i = 1`. -/
theorem c1_witness :
    (idx (runOps seedHeap [HeapOp.insert (2, "Deploy code update")]) 0).1 ≤
      (idx (runOps seedHeap [HeapOp.insert (2, "Deploy code update")]) 1).1 :=
  c1_heap_invariant_preserved [HeapOp.insert (2, "Deploy code update")] 1
    (by decide) (by decide)

/-- C2: Drain order law.  For every queue satisfying the heap invariant,
calling extractMin repeatedly until the queue is empty returns the tasks in
non-decreasing order of priority (and drains every task). -/
theorem c2_drain_order (l : List Task) (h : heapProp priLe l) :
    List.Sorted (· ≤ ·) ((extractAll l).map Prod.fst) ∧
      (extractAll l).length = l.length := by
  obtain ⟨hp, hlen, _⟩ := extractAllF_spec priLe_ok l.length l le_rfl h
  exact ⟨List.Pairwise.map Prod.fst (fun a b hab => hab) hp, hlen⟩

/-- Witness for C2 at the concrete heap `[(1, "b"), (3, "a"), (2, "c")]`. -/
theorem c2_witness :
    List.Sorted (· ≤ ·)
        ((extractAll ([(1, "b"), (3, "a"), (2, "c")] : List Task)).map Prod.fst) ∧
      (extractAll ([(1, "b"), (3, "a"), (2, "c")] : List Task)).length =
        ([(1, "b"), (3, "a"), (2, "c")] : List Task).length :=
  c2_drain_order [(1, "b"), (3, "a"), (2, "c")]
    ((heapProp_iff_range priLe [(1, "b"), (3, "a"), (2, "c")]).mpr (by decide))

/-- C3: extractMin correctness.  For every non-empty queue satisfying the
heap invariant, `heappop` removes and returns the task at array index 0 (a
task of minimum priority), the heap invariant holds on the remaining
array, and the size decreases by exactly 1. -/
theorem c3_extractMin_correct (l : List Task) (h : heapProp priLe l) (hne : l ≠ []) :
    ∃ q, heappop l = Except.ok (idx l 0, q) ∧
      (∀ t ∈ l, (idx l 0).1 ≤ t.1) ∧
      q.length = l.length - 1 ∧ heapProp priLe q := by
  obtain ⟨q, heq, hlen, hq, _⟩ := heappop_spec priLe_ok l h hne
  exact ⟨q, heq, fun t ht => heapProp_root_min priLe_ok l h t ht, hlen, hq⟩

/-- Witness for C3 at the concrete heap `[(1, "x"), (2, "y")]`. -/
theorem c3_witness :
    ∃ q, heappop ([(1, "x"), (2, "y")] : List Task) =
        Except.ok (idx ([(1, "x"), (2, "y")] : List Task) 0, q) ∧
      (∀ t ∈ ([(1, "x"), (2, "y")] : List Task),
        (idx ([(1, "x"), (2, "y")] : List Task) 0).1 ≤ t.1) ∧
      q.length = ([(1, "x"), (2, "y")] : List Task).length - 1 ∧ heapProp priLe q :=
  c3_extractMin_correct [(1, "x"), (2, "y")]
    ((heapProp_iff_range priLe [(1, "x"), (2, "y")]).mpr (by decide)) (by decide)

/-- C4: Empty-queue error.  Both `peek` and extractMin (`heappop`), when
invoked on a queue with zero elements, fail with the single error kind
`EmptyQueue`. -/
theorem c4_empty_queue_error (q : List Task) (h : q.length = 0) :
    peek q = Except.error QueueError.emptyQueue ∧
      heappop q = Except.error QueueError.emptyQueue := by
  have h0 : q = [] := List.eq_nil_of_length_eq_zero h
  subst h0
  exact ⟨rfl, rfl⟩

/-- Witness for C4 at the empty queue. -/
theorem c4_witness :
    peek ([] : List Task) = Except.error QueueError.emptyQueue ∧
      heappop ([] : List Task) = Except.error QueueError.emptyQueue :=
  c4_empty_queue_error [] rfl

/-- C5: insert totality and effect.  For every queue satisfying the heap
invariant and every integer priority and string description, `heappush`
succeeds (it is a total function), the queue size increases by exactly 1,
and the heap invariant holds afterward. -/
theorem c5_insert_total (l : List Task) (p : Int) (d : String)
    (h : heapProp priLe l) :
    (heappush l (p, d)).length = l.length + 1 ∧ heapProp priLe (heappush l (p, d)) :=
  heappush_spec priLe_ok l (p, d) h

/-- Witness for C5: inserting priority 4, "Write documentation" into the
seed heap. -/
theorem c5_witness :
    (heappush seedHeap (4, "Write documentation")).length = seedHeap.length + 1 ∧
      heapProp priLe (heappush seedHeap (4, "Write documentation")) :=
  c5_insert_total seedHeap 4 "Write documentation" seedHeap_heapProp_pri

/-- C6: snapshotOrdered purity and order.  For every queue state, the
snapshot built for display is a copy containing all tasks (a permutation
of the queue), sorted in ascending order of priority, and rendering does
not change the underlying heap array or its physical layout. -/
theorem c6_snapshot_pure_sorted (l : List Task) :
    (renderQueue l).2 = l ∧ List.Perm (renderQueue l).1 l ∧
      List.Sorted (fun a b : Task => a.1 ≤ b.1) (renderQueue l).1 := by
  refine ⟨rfl, List.mergeSort_perm l (fun a b => decide (a.1 ≤ b.1)), ?_⟩
  have htrans : ∀ a b c : Task, (fun x y : Task => decide (x.1 ≤ y.1)) a b →
      (fun x y : Task => decide (x.1 ≤ y.1)) b c →
      (fun x y : Task => decide (x.1 ≤ y.1)) a c := by
    intro a b c h1 h2
    simp only [decide_eq_true_eq] at h1 h2 ⊢
    exact le_trans h1 h2
  have htotal : ∀ a b : Task, ((fun x y : Task => decide (x.1 ≤ y.1)) a b ||
      (fun x y : Task => decide (x.1 ≤ y.1)) b a) = true := by
    intro a b
    simp only [Bool.or_eq_true, decide_eq_true_eq]
    exact le_total a.1 b.1
  have h2 := List.sorted_mergeSort htrans htotal l
  exact h2.imp (fun hab => of_decide_eq_true hab)

/-- C7: Size conservation.  For every operation sequence with N inserts
and M extractMins run from the empty queue through the abstract core
(where extractMin fails on an empty queue), if the run completes then
M ≤ N and the final queue size equals N - M. -/
theorem c7_size_conservation (ops : List HeapOp) (q : List Task)
    (h : runOpsE [] ops = Except.ok q) :
    countExtract ops ≤ countInsert ops ∧
      q.length = countInsert ops - countExtract ops := by
  have h2 := runOpsE_length ops [] q h
  simp only [List.length_nil, Nat.zero_add] at h2
  exact ⟨by omega, by omega⟩

/-- Witness for C7: two inserts followed by one extract. -/
theorem c7_witness :
    countExtract [HeapOp.insert (1, "a"), HeapOp.insert (2, "b"), HeapOp.extract] ≤
        countInsert [HeapOp.insert (1, "a"), HeapOp.insert (2, "b"), HeapOp.extract] ∧
      ([(2, "b")] : List Task).length =
        countInsert [HeapOp.insert (1, "a"), HeapOp.insert (2, "b"), HeapOp.extract] -
          countExtract [HeapOp.insert (1, "a"), HeapOp.insert (2, "b"), HeapOp.extract] :=
  c7_size_conservation [HeapOp.insert (1, "a"), HeapOp.insert (2, "b"), HeapOp.extract]
    [(2, "b")] rfl

/-- C8: peek idempotence.  For every non-empty queue, calling `peek` twice
in a row with no intervening mutation returns the identical task both
times and leaves the queue (hence its size) unchanged. -/
theorem c8_peek_idempotent (q : List Task) (hne : q ≠ []) :
    ∃ t, peekTwice q = Except.ok (t, t, q) := by
  have hq : q.isEmpty = false := by
    cases q with
    | nil => exact absurd rfl hne
    | cons a t => rfl
  have h1 : peek q = Except.ok (idx q 0) := by
    unfold peek
    rw [if_neg (by rw [hq]; exact Bool.false_ne_true)]
  refine ⟨idx q 0, ?_⟩
  unfold peekTwice
  rw [h1]
  rfl

/-- Witness for C8 at the concrete queue `[(1, "Fix login issue")]`. -/
theorem c8_witness :
    ∃ t, peekTwice ([(1, "Fix login issue")] : List Task) =
      Except.ok (t, t, ([(1, "Fix login issue")] : List Task)) :=
  c8_peek_idempotent [(1, "Fix login issue")] (by decide)

/-- C9: Implicit tie-break determinism.  On any queue reachable from the
heapified seed by insert/extract operations, `heappop` returns a task
whose priority is minimal and, among the tasks sharing that minimal
priority, whose description string is lexicographically smallest — because
the heap compares whole (priority, description) tuples. -/
theorem c9_tie_break_deterministic (ops : List HeapOp) (r : Task) (q2 : List Task)
    (h : heappop (runOps seedHeap ops) = Except.ok (r, q2)) :
    ∀ t ∈ runOps seedHeap ops, r.1 ≤ t.1 ∧ (t.1 = r.1 → r.2 ≤ t.2) := by
  intro t ht
  have hq : heapProp tupLe (runOps seedHeap ops) :=
    runOps_heapProp tupLe_ok ops seedHeap seedHeap_heapProp_tup
  have hne : runOps seedHeap ops ≠ [] := heappop_ok_ne_nil _ r q2 h
  obtain ⟨q3, heq2, _, _, _⟩ := heappop_spec tupLe_ok _ hq hne
  rw [heq2] at h
  have hr : r = idx (runOps seedHeap ops) 0 := by
    injection h with h2
    injection h2 with h3 h4
    exact h3.symm
  have hmin := heapProp_root_min tupLe_ok _ hq t ht
  rw [← hr] at hmin
  rcases hmin with hlt | ⟨heq, hle⟩
  · exact ⟨le_of_lt hlt, fun hteq => absurd (hteq ▸ hlt) (lt_irrefl _)⟩
  · exact ⟨le_of_eq heq, fun _ => hle⟩

/-- Witness for C9: after inserting (1, "Apply hotfix"), the queue holds
two priority-1 tasks and the pop returns the lexicographically smaller
description. -/
theorem c9_witness :
    ((1 : Int), "Apply hotfix").1 ≤ ((1 : Int), "Fix critical server bug (Urgent)").1 ∧
      (((1 : Int), "Fix critical server bug (Urgent)").1 = ((1 : Int), "Apply hotfix").1 →
        ((1 : Int), "Apply hotfix").2 ≤ ((1 : Int), "Fix critical server bug (Urgent)").2) :=
  c9_tie_break_deterministic [HeapOp.insert (1, "Apply hotfix")]
    (1, "Apply hotfix")
    [(1, "Fix critical server bug (Urgent)"), (3, "Send follow-up email (Low Priority)"),
      (2, "Review PRs (Medium Priority)")]
    rfl (1, "Fix critical server bug (Urgent)") (by decide)

/-- C10: Implicit atomicity on empty extraction.  Invoking
`process_next_task` on an empty queue leaves the queue state completely
unchanged, removes and adds nothing, and no exception propagates (the
function is total and returns the untouched state). -/
theorem c10_empty_extract_noop (q : List Task) (h : q.isEmpty = true) :
    processNextTask q = (q, none) := by
  unfold processNextTask
  rw [if_pos h]

/-- Witness for C10 at the empty queue. -/
theorem c10_witness : processNextTask ([] : List Task) = ([], none) :=
  c10_empty_extract_noop [] rfl

end HeapModel
